import Mathlib

/-!
Verification development for the order-book synchronization core of the
reservoir-indexer repository: the wyvern-v2.3 event parser and dispatcher,
the bulk-cancel nonce helpers, the reorg correction over the domain-event
ledger, the buy-order-events cursor sweep and the attribute-resync queue.
Each definition is a shallow embedding of the corresponding source
function; definitions whose source module is outside the provided tree are
marked as modelled from the specification.
-/

/-- Models the JavaScript `String.prototype.toLowerCase` builtin applied by
the parser to hashes and addresses, mapping every character through
`Char.toLower` (the inputs are hex strings, so ASCII case folding is the
whole behaviour). -/
def toLowerCase (s : String) : String :=
  ⟨s.data.map Char.toLower⟩

/-- A string is case-normalized when lowercasing it changes nothing. -/
def lowerNormalized (s : String) : Bool :=
  toLowerCase s == s

theorem Char.toLower_toLower (c : Char) : c.toLower.toLower = c.toLower := by
  unfold Char.toLower
  by_cases h : c.toNat ≥ 65 ∧ c.toNat ≤ 90
  · rw [if_pos h]
    have hv : (c.toNat + 32).isValidChar := by
      left
      have := h.2
      omega
    have ht : (Char.ofNat (c.toNat + 32)).toNat = c.toNat + 32 := by
      simp only [Char.ofNat, hv, dif_pos]
      rfl
    rw [ht, if_neg]
    intro hcon
    have := h.1
    omega
  · rw [if_neg h, if_neg h]

theorem toLowerCase_toLowerCase (s : String) :
    toLowerCase (toLowerCase s) = toLowerCase s := by
  unfold toLowerCase
  simp [List.map_map, Function.comp_def, Char.toLower_toLower]

theorem lowerNormalized_toLowerCase (s : String) :
    lowerNormalized (toLowerCase s) = true := by
  simp [lowerNormalized, toLowerCase_toLowerCase]

namespace Wyvern

/-- Stands for `abi.getEventTopic "OrderCancelled"`: the topic-0 value that
selects the single-order cancellation event. Topic hashes are opaque
distinct identifiers here. -/
def orderCancelledTopic : String := "topic0:OrderCancelled"

/-- Stands for `abi.getEventTopic "OrdersMatched"`: the topic-0 value that
selects the fill event. -/
def ordersMatchedTopic : String := "topic0:OrdersMatched"

/-- Stands for `abi.getEventTopic "NonceIncremented"`: the topic-0 value
that selects the bulk-cancel event. -/
def nonceIncrementedTopic : String := "topic0:NonceIncremented"

/-- The ABI-encoded payload of a raw log, as the external ethers decoder
sees it: either arguments of one of the three known shapes, or bytes that
decode as none of them. -/
inductive LogData where
  | cancelled (hash : String)
  | matched (buyHash sellHash maker taker : String) (price : Nat)
  | nonceIncremented (maker : String) (newNonce : Nat)
  | malformed
deriving DecidableEq, Repr

/-- A raw on-chain log as delivered to `syncCallback`. -/
structure Log where
  address : String
  topics : List String
  data : LogData
  blockNumber : Nat
  blockHash : String
  transactionHash : String
  logIndex : Nat
deriving DecidableEq, Repr

/-- Identity and ordering data of an event, per the spec's data model. -/
structure BaseEventParams where
  address : String
  block : Nat
  blockHash : String
  txHash : String
  logIndex : Nat
deriving DecidableEq, Repr

/-- Modelled from the spec: `parseEvent` (src/events/parser, not included
under src/) derives the BaseEventParams deterministically from a raw log. -/
def parseEvent (log : Log) : BaseEventParams :=
  { address := log.address
    block := log.blockNumber
    blockHash := log.blockHash
    txHash := log.transactionHash
    logIndex := log.logIndex }

/-- Models `abi.parseLog` on a log dispatched as `OrderCancelled`: decoding
succeeds exactly when the payload has the `OrderCancelled` shape; anything
else raises in the source, modelled as `none`. -/
def decodeOrderCancelled (log : Log) : Option String :=
  match log.data with
  | .cancelled h => some h
  | _ => none

/-- Models `abi.parseLog` on a log dispatched as `OrdersMatched`. -/
def decodeOrdersMatched (log : Log) :
    Option (String × String × String × String × Nat) :=
  match log.data with
  | .matched b s m t p => some (b, s, m, t, p)
  | _ => none

/-- Models `abi.parseLog` on a log dispatched as `NonceIncremented`. -/
def decodeNonceIncremented (log : Log) : Option (String × Nat) :=
  match log.data with
  | .nonceIncremented m n => some (m, n)
  | _ => none

/-- CancelEvent of the domain-event model. -/
structure CancelEvent where
  orderHash : String
  baseParams : BaseEventParams
deriving DecidableEq, Repr

/-- FillEvent of the domain-event model; `price` carries the decimal
rendering produced by `.toString()` in the source. -/
structure FillEvent where
  buyHash : String
  sellHash : String
  maker : String
  taker : String
  price : String
  baseParams : BaseEventParams
deriving DecidableEq, Repr

/-- BulkCancelEvent as built by `syncCallback`; the source keeps `newNonce`
as the decimal string of the decoded uint256, carried here as the number it
renders. -/
structure BulkCancelEvent where
  context : String
  maker : String
  newNonce : Nat
deriving DecidableEq, Repr

/-- Reconciliation work-item payload. -/
structure HashInfo where
  context : String
  hash : String
deriving DecidableEq, Repr

/-- Fill-accounting work-item payload. -/
structure FillInfo where
  context : String
  buyHash : String
  sellHash : String
  block : Nat
deriving DecidableEq, Repr

/-- The five accumulator arrays of the `for (const log of logs)` loop. -/
structure ParseResult where
  bulkCancelEvents : List BulkCancelEvent
  cancelEvents : List CancelEvent
  fillEvents : List FillEvent
  hashInfos : List HashInfo
  fillInfos : List FillInfo
deriving DecidableEq, Repr

def emptyResult : ParseResult :=
  { bulkCancelEvents := []
    cancelEvents := []
    fillEvents := []
    hashInfos := []
    fillInfos := [] }

def appendResult (a b : ParseResult) : ParseResult :=
  { bulkCancelEvents := a.bulkCancelEvents ++ b.bulkCancelEvents
    cancelEvents := a.cancelEvents ++ b.cancelEvents
    fillEvents := a.fillEvents ++ b.fillEvents
    hashInfos := a.hashInfos ++ b.hashInfos
    fillInfos := a.fillInfos ++ b.fillInfos }

/-- One iteration of the per-log loop of `syncCallback`: compute the base
params and context, dispatch on topic 0, and push the derived events and
work items; a decode failure is caught and contributes nothing, and an
unknown topic matches no case of the switch. -/
def processLog (log : Log) : ParseResult :=
  let baseParams := parseEvent log
  let context := baseParams.txHash ++ "-" ++ toString baseParams.logIndex
  if log.topics.head? = some orderCancelledTopic then
    match decodeOrderCancelled log with
    | some h =>
      let orderHash := toLowerCase h
      { emptyResult with
        cancelEvents := [{ orderHash := orderHash, baseParams := baseParams }]
        hashInfos := [{ context := context, hash := orderHash }] }
    | none => emptyResult
  else if log.topics.head? = some ordersMatchedTopic then
    match decodeOrdersMatched log with
    | some (b, s, m, t, p) =>
      let buyHash := toLowerCase b
      let sellHash := toLowerCase s
      let maker := toLowerCase m
      let taker := toLowerCase t
      let price := toString p
      { emptyResult with
        fillEvents := [{ buyHash := buyHash, sellHash := sellHash
                         maker := maker, taker := taker, price := price
                         baseParams := baseParams }]
        hashInfos := [{ context := context, hash := buyHash },
                      { context := context, hash := sellHash }]
        fillInfos := [{ context := context, buyHash := buyHash
                        sellHash := sellHash, block := baseParams.block }] }
    | none => emptyResult
  else if log.topics.head? = some nonceIncrementedTopic then
    match decodeNonceIncremented log with
    | some (m, n) =>
      { emptyResult with
        bulkCancelEvents := [{ context := context, maker := toLowerCase m
                               newNonce := n }] }
    | none => emptyResult
  else emptyResult

/-- The whole per-log loop of `syncCallback`, in batch order. -/
def parseLogs : List Log → ParseResult
  | [] => emptyResult
  | log :: rest => appendResult (processLog log) (parseLogs rest)

theorem appendResult_empty_left (r : ParseResult) :
    appendResult emptyResult r = r := by
  simp [appendResult, emptyResult]

theorem appendResult_assoc (a b c : ParseResult) :
    appendResult (appendResult a b) c = appendResult a (appendResult b c) := by
  simp [appendResult]

theorem parseLogs_append (xs ys : List Log) :
    parseLogs (xs ++ ys) = appendResult (parseLogs xs) (parseLogs ys) := by
  induction xs with
  | nil => simp [parseLogs, appendResult_empty_left]
  | cons l rest ih => simp [parseLogs, ih, appendResult_assoc]

theorem processLog_malformed (log : Log) (h : log.data = .malformed) :
    processLog log = emptyResult := by
  unfold processLog
  simp only [decodeOrderCancelled, decodeOrdersMatched, decodeNonceIncremented, h]
  split <;> simp

theorem appendResult_empty_right (r : ParseResult) :
    appendResult r emptyResult = r := by
  simp [appendResult, emptyResult]

theorem parseLogs_middle (pre post : List Log) (x : Log) :
    parseLogs (pre ++ x :: post) =
      appendResult (parseLogs pre)
        (appendResult (processLog x) (parseLogs post)) := by
  rw [parseLogs_append]
  rfl

/-- Every order hash and every maker or taker address carried by the parse
output is case-normalized. -/
def resultLowercased (r : ParseResult) : Prop :=
  (∀ e ∈ r.cancelEvents, lowerNormalized e.orderHash = true) ∧
  (∀ e ∈ r.fillEvents, lowerNormalized e.buyHash = true ∧
    lowerNormalized e.sellHash = true ∧ lowerNormalized e.maker = true ∧
    lowerNormalized e.taker = true) ∧
  (∀ e ∈ r.bulkCancelEvents, lowerNormalized e.maker = true) ∧
  (∀ i ∈ r.hashInfos, lowerNormalized i.hash = true) ∧
  (∀ i ∈ r.fillInfos, lowerNormalized i.buyHash = true ∧
    lowerNormalized i.sellHash = true)

theorem resultLowercased_empty : resultLowercased emptyResult := by
  simp [resultLowercased, emptyResult]

theorem resultLowercased_append {a b : ParseResult}
    (ha : resultLowercased a) (hb : resultLowercased b) :
    resultLowercased (appendResult a b) := by
  obtain ⟨a1, a2, a3, a4, a5⟩ := ha
  obtain ⟨b1, b2, b3, b4, b5⟩ := hb
  refine ⟨?_, ?_, ?_, ?_, ?_⟩
  · intro e he
    simp only [appendResult] at he
    rcases List.mem_append.mp he with h | h
    · exact a1 e h
    · exact b1 e h
  · intro e he
    simp only [appendResult] at he
    rcases List.mem_append.mp he with h | h
    · exact a2 e h
    · exact b2 e h
  · intro e he
    simp only [appendResult] at he
    rcases List.mem_append.mp he with h | h
    · exact a3 e h
    · exact b3 e h
  · intro e he
    simp only [appendResult] at he
    rcases List.mem_append.mp he with h | h
    · exact a4 e h
    · exact b4 e h
  · intro e he
    simp only [appendResult] at he
    rcases List.mem_append.mp he with h | h
    · exact a5 e h
    · exact b5 e h

theorem resultLowercased_processLog (log : Log) :
    resultLowercased (processLog log) := by
  unfold processLog
  split
  · split <;>
      simp [resultLowercased, emptyResult, lowerNormalized_toLowerCase]
  · split
    · split <;>
        simp [resultLowercased, emptyResult, lowerNormalized_toLowerCase]
    · split
      · split <;>
          simp [resultLowercased, emptyResult, lowerNormalized_toLowerCase]
      · exact resultLowercased_empty

theorem resultLowercased_parseLogs (logs : List Log) :
    resultLowercased (parseLogs logs) := by
  induction logs with
  | nil => exact resultLowercased_empty
  | cons l rest ih =>
    exact resultLowercased_append (resultLowercased_processLog l) ih

/-- A malformed log with a known topic, used to instantiate the
malformed-batch claims. -/
def demoBadLog : Log :=
  { address := "0xa", topics := [orderCancelledTopic], data := .malformed,
    blockNumber := 1, blockHash := "0xb", transactionHash := "0xt",
    logIndex := 0 }

/-- A well-formed OrderCancelled log with a given log index. -/
def demoGoodLog (i : Nat) : Log :=
  { address := "0xa", topics := [orderCancelledTopic],
    data := .cancelled "0xAB", blockNumber := 1, blockHash := "0xb",
    transactionHash := "0xt", logIndex := i }

/-- Nine well-formed logs with one malformed log in the middle. -/
def demoBatch : List Log :=
  (List.range 5).map demoGoodLog ++ demoBadLog ::
    (List.range 4).map (fun i => demoGoodLog (5 + i))

/-- The deployment configuration fields `syncCallback` and `getMinNonce`
read from `config`. -/
structure Config where
  chainId : Nat
  acceptOrders : Bool
deriving DecidableEq, Repr

/-- A persisted row of the `orders` table, restricted to the columns the
bulk-cancel update touches; `nonce` is nullable. -/
structure Order where
  hash : String
  kind : String
  maker : String
  nonce : Option Nat
  status : String
deriving DecidableEq, Repr

/-- The row predicate of the bulk-cancel `update "orders"` statement:
kind wyvern-v2.3, same maker, stored nonce strictly below the new nonce
(a SQL comparison against a NULL nonce selects nothing), and status
`valid` or `no-balance`. -/
def bulkCancelMatches (maker : String) (newNonce : Nat) (o : Order) : Bool :=
  o.kind == "wyvern-v2.3" && o.maker == maker &&
    (match o.nonce with
     | some n => decide (n < newNonce)
     | none => false) &&
    (o.status == "valid" || o.status == "no-balance")

/-- Intent of the bulk-cancel `update ... returning "hash"` statement: set
the matching rows to `cancelled` and yield their hashes. The source spells
the final keyword `return`, which PostgreSQL rejects; this definition
embeds the statement as evidently intended (see the C3 record). -/
def applyBulkCancel (maker : String) (newNonce : Nat) (orders : List Order) :
    List Order × List String :=
  (orders.map (fun o =>
      if bulkCancelMatches maker newNonce o then { o with status := "cancelled" }
      else o),
   (orders.filter (bulkCancelMatches maker newNonce)).map (·.hash))

/-- The `for (const ... of bulkCancelEvents)` loop: apply each update in
order and enqueue a `{context, hash}` work item per updated row. -/
def applyBulkCancels : List BulkCancelEvent → List Order →
    List Order × List HashInfo
  | [], orders => (orders, [])
  | e :: rest, orders =>
    let step := applyBulkCancel e.maker e.newNonce orders
    let tail := applyBulkCancels rest step.1
    (tail.1,
     step.2.map (fun h => { context := e.context, hash := h }) ++ tail.2)

/-- The observable effects of one `syncCallback` invocation: what was
appended to the cancel and fill ledgers, what was enqueued on the
reconciliation and fill-accounting queues, and the orders table after the
dispatch step. -/
structure SyncResult where
  appendedCancelEvents : List CancelEvent
  appendedFillEvents : List FillEvent
  enqueuedHashInfos : List HashInfo
  enqueuedFillInfos : List FillInfo
  orders : List Order
deriving DecidableEq, Repr

/-- `syncCallback` of the wyvern-v2.3 adapter: parse the batch, always
append the cancel and fill events, and only outside backfill (and only when
the instance accepts orders) enqueue the work items and run the bulk-cancel
order updates. -/
def syncCallback (cfg : Config) (orders : List Order) (logs : List Log)
    (backfill : Bool) : SyncResult :=
  let r := parseLogs logs
  if backfill then
    { appendedCancelEvents := r.cancelEvents
      appendedFillEvents := r.fillEvents
      enqueuedHashInfos := []
      enqueuedFillInfos := []
      orders := orders }
  else if cfg.acceptOrders then
    let bulk := applyBulkCancels r.bulkCancelEvents orders
    { appendedCancelEvents := r.cancelEvents
      appendedFillEvents := r.fillEvents
      enqueuedHashInfos := r.hashInfos ++ bulk.2
      enqueuedFillInfos := r.fillInfos
      orders := bulk.1 }
  else
    { appendedCancelEvents := r.cancelEvents
      appendedFillEvents := r.fillEvents
      enqueuedHashInfos := []
      enqueuedFillInfos := []
      orders := orders }

/-- The bulk-cancel update statement of `syncCallback`, verbatim from the
source template literal with whitespace collapsed. -/
def bulkCancelUpdateStatement : String :=
  "update \"orders\" set \"status\" = 'cancelled' where \"kind\" = 'wyvern-v2.3' and \"maker\" = $/maker/ and \"nonce\" < $/nonce/ and (\"status\" = 'valid' or \"status\" = 'no-balance') return \"hash\""

end Wyvern

/-- Whether `pat` stands at the head of `txt`. -/
def charsLeadWith : List Char → List Char → Bool
  | [], _ => true
  | _ :: _, [] => false
  | p :: ps, t :: ts => p == t && charsLeadWith ps ts

/-- Whether `pat` occurs anywhere inside `txt`. -/
def charsOccurIn (pat : List Char) : List Char → Bool
  | [] => charsLeadWith pat []
  | t :: ts => charsLeadWith pat (t :: ts) || charsOccurIn pat ts

/-- Substring test on strings, used to inspect embedded SQL text. -/
def containsSub (pat s : String) : Bool :=
  charsOccurIn pat.data s.data

namespace Helpers

/-- A row of the `bulk_cancel_events` table, restricted to the columns
`getMinNonce` reads. -/
structure BulkCancelRow where
  order_kind : String
  maker : String
  min_nonce : Nat
deriving DecidableEq, Repr

/-- The WHERE clause of both inner queries of `getMinNonce`. -/
def rowMatches (orderKind maker : String) (r : BulkCancelRow) : Bool :=
  r.order_kind == orderKind && r.maker == maker

/-- Descending insertion of a nonce into a list sorted descending. -/
def insertDescNat (n : Nat) : List Nat → List Nat
  | [] => [n]
  | m :: rest => if m ≤ n then n :: m :: rest else m :: insertDescNat n rest

/-- Descending sort, modelling `ORDER BY bulk_cancel_events.min_nonce DESC`. -/
def sortDescNat : List Nat → List Nat
  | [] => []
  | n :: rest => insertDescNat n (sortDescNat rest)

/-- The inner `SELECT ... ORDER BY min_nonce DESC LIMIT 1` of `getMinNonce`:
the first row of the sorted filtered table, when any. -/
def selectTopMinNonce (orderKind maker : String) (tbl : List BulkCancelRow) :
    Option Nat :=
  (sortDescNat ((tbl.filter (rowMatches orderKind maker)).map
    (·.min_nonce))).head?

/-- `getMinNonce` from src/orderbook/orders/common/helpers.ts: on chain 4
with order kind wyvern-v2.3 the raw stored value is adjusted by one inside
the inner select (the Rinkeby off-by-one quirk); either way the outer
`coalesce(..., 0)` supplies zero when no row exists. -/
def getMinNonce (cfg : Wyvern.Config) (orderKind maker : String)
    (tbl : List BulkCancelRow) : Nat :=
  if cfg.chainId = 4 ∧ orderKind = "wyvern-v2.3" then
    ((selectTopMinNonce orderKind maker tbl).map (· + 1)).getD 0
  else
    (selectTopMinNonce orderKind maker tbl).getD 0

/-- The maximum recorded nonce of a list, stated independently of the SQL
embedding: `none` on the empty list, otherwise the largest element. -/
def maxRecorded : List Nat → Option Nat
  | [] => none
  | n :: rest =>
    match maxRecorded rest with
    | none => some n
    | some m => some (Nat.max n m)

/-- The bulk-cancel minimum nonces recorded for a (kind, maker) pair. -/
def recordedMinNonces (orderKind maker : String)
    (tbl : List BulkCancelRow) : List Nat :=
  (tbl.filter (rowMatches orderKind maker)).map (·.min_nonce)

theorem head?_insertDescNat (n : Nat) (l : List Nat) :
    (insertDescNat n l).head? =
      some (match l.head? with | none => n | some m => Nat.max n m) := by
  cases l with
  | nil => simp [insertDescNat]
  | cons m rest =>
    simp only [insertDescNat, List.head?]
    by_cases h : m ≤ n
    · rw [if_pos h]
      simp [Nat.max_eq_left h]
    · rw [if_neg h]
      simp [Nat.max_eq_right (Nat.le_of_not_le h)]

theorem head?_sortDescNat (l : List Nat) :
    (sortDescNat l).head? = maxRecorded l := by
  induction l with
  | nil => simp [sortDescNat, maxRecorded]
  | cons n rest ih =>
    simp only [sortDescNat, maxRecorded, head?_insertDescNat, ih]
    cases maxRecorded rest <;> simp

theorem selectTopMinNonce_eq_max (orderKind maker : String)
    (tbl : List BulkCancelRow) :
    selectTopMinNonce orderKind maker tbl =
      maxRecorded (recordedMinNonces orderKind maker tbl) := by
  simp [selectTopMinNonce, recordedMinNonces, head?_sortDescNat]

end Helpers

namespace Ledger

/-- A persisted cancel event, restricted to the columns the reorg removal
reads: the referenced order hash and the block hash it was indexed under. -/
structure CancelRow where
  orderHash : String
  blockHash : String
deriving DecidableEq, Repr

/-- A persisted fill event, restricted likewise; a fill references two
order hashes. -/
structure FillRow where
  buyHash : String
  sellHash : String
  blockHash : String
deriving DecidableEq, Repr

/-- The append-only domain-event ledger. -/
structure LedgerState where
  cancelRows : List CancelRow
  fillRows : List FillRow
deriving DecidableEq, Repr

/-- Modelled from the spec: `removeCancelEvents` (src/events/common/cancels,
not included under src/) deletes every cancel event whose block hash equals
the orphaned hash and re-enqueues a reconciliation work item for every
order hash referenced by the removed events. -/
def removeCancelEvents (blockHash : String) (rows : List CancelRow) :
    List CancelRow × List String :=
  (rows.filter (fun r => r.blockHash != blockHash),
   (rows.filter (fun r => r.blockHash == blockHash)).map (·.orderHash))

/-- Modelled from the spec: `removeFillEvents` (src/events/common/fills, not
included under src/) deletes every fill event of the orphaned block and
re-enqueues both order hashes each removed fill references. -/
def removeFillEvents (blockHash : String) (rows : List FillRow) :
    List FillRow × List String :=
  (rows.filter (fun r => r.blockHash != blockHash),
   (rows.filter (fun r => r.blockHash == blockHash)).flatMap
     (fun r => [r.buyHash, r.sellHash]))

/-- `fixCallback` of the wyvern-v2.3 adapter: remove the cancel events of
the orphaned block, then its fill events; the work items each removal
re-enqueues are collected in order. -/
def fixCallback (blockHash : String) (l : LedgerState) :
    LedgerState × List String :=
  let c := removeCancelEvents blockHash l.cancelRows
  let f := removeFillEvents blockHash l.fillRows
  ({ cancelRows := c.1, fillRows := f.1 }, c.2 ++ f.2)

end Ledger

namespace ResyncAttributeCache

/-- A queued attribute-resync job: the bullmq job id, the payload and the
delivery delay in milliseconds. -/
structure QueuedJob where
  jobId : String
  contract : String
  tokenId : String
  delayMs : Nat
deriving DecidableEq, Repr

/-- Modelled from the spec: bullmq `queue.add` with a stable `jobId`
deduplicates against an item already queued under the same id, making the
enqueue a no-op; otherwise the item is appended. -/
def queueAdd (job : QueuedJob) (q : List QueuedJob) : List QueuedJob :=
  if q.any (fun j => j.jobId == job.jobId) then q else q ++ [job]

/-- `addToQueue` from src/jobs/update-attribute/resync-attribute-cache.ts:
job id `contract:tokenId`, default delay of 60 minutes in milliseconds. -/
def addToQueue (contract tokenId : String) (q : List QueuedJob)
    (delay : Nat := 60 * 60 * 1000) : List QueuedJob :=
  queueAdd
    { jobId := contract ++ ":" ++ tokenId
      contract := contract
      tokenId := tokenId
      delayMs := delay } q

end ResyncAttributeCache

namespace RemoveBuyOrderEvents

def QUEUE_NAME : String := "remove-buy-order-events-queue"

/-- A row of the `orders` table, restricted to the columns the sweep query
reads. Text ids are modelled by their rank in the id column's total order,
so the composite SQL comparison is the lexicographic one on numbers. -/
structure Row where
  createdAt : Nat
  id : Nat
  side : String
deriving DecidableEq, Repr

/-- The composite sort and cursor key `(created_at, id)`. -/
def rowKey (r : Row) : Nat × Nat := (r.createdAt, r.id)

/-- The strict composite comparison `(created_at, id) < (cursor values)`. -/
def keyLt (a b : Nat × Nat) : Bool :=
  decide (a.1 < b.1 ∨ (a.1 = b.1 ∧ a.2 < b.2))

/-- The WHERE clause of the sweep query: buy side, and strictly below the
continuation cursor when the payload carries one. -/
def matchesQuery (cursor : Option (Nat × Nat)) (r : Row) : Bool :=
  r.side == "buy" &&
    (match cursor with
     | none => true
     | some c => keyLt (rowKey r) c)

/-- The rows the sweep has not yet visited at a given cursor. -/
def remainingRows (tbl : List Row) (cursor : Option (Nat × Nat)) : List Row :=
  tbl.filter (matchesQuery cursor)

/-- A row of maximal composite key, modelling
`ORDER BY created_at DESC, id DESC LIMIT 1`. -/
def argmaxRow : List Row → Option Row
  | [] => none
  | r :: rest =>
    match argmaxRow rest with
    | none => some r
    | some m => if keyLt (rowKey m) (rowKey r) then some r else some m

/-- The page the worker observes: the top remaining row, when any. -/
def selectPage (tbl : List Row) (cursor : Option (Nat × Nat)) : Option Row :=
  argmaxRow (remainingRows tbl cursor)

theorem keyLt_iff (a b : Nat × Nat) :
    keyLt a b = true ↔ (a.1 < b.1 ∨ (a.1 = b.1 ∧ a.2 < b.2)) := by
  simp [keyLt]

theorem keyLt_irrefl (a : Nat × Nat) : keyLt a a = false := by
  simp [keyLt]

theorem keyLt_trans {a b c : Nat × Nat} (h1 : keyLt a b = true)
    (h2 : keyLt b c = true) : keyLt a c = true := by
  rw [keyLt_iff] at *
  omega

theorem keyLt_total {a b : Nat × Nat} (h1 : keyLt a b = false)
    (h2 : keyLt b a = false) : a = b := by
  simp only [keyLt, decide_eq_false_iff_not] at h1 h2
  have : a.1 = b.1 ∧ a.2 = b.2 := by omega
  exact Prod.ext this.1 this.2

theorem argmaxRow_spec (l : List Row) :
    (argmaxRow l = none → l = []) ∧
    (∀ r, argmaxRow l = some r →
      r ∈ l ∧ ∀ x ∈ l, keyLt (rowKey r) (rowKey x) = false) := by
  induction l with
  | nil =>
    refine ⟨fun _ => rfl, fun r h => ?_⟩
    simp [argmaxRow] at h
  | cons y rest ih =>
    constructor
    · intro h
      exfalso
      cases hm : argmaxRow rest with
      | none => simp [argmaxRow, hm] at h
      | some m =>
        simp only [argmaxRow, hm] at h
        split at h <;> simp at h
    · intro r h
      cases hm : argmaxRow rest with
      | none =>
        have hrest := ih.1 hm
        subst hrest
        have hyr : y = r := by simpa [argmaxRow] using h
        obtain rfl := hyr
        exact ⟨List.mem_cons_self y [], by simp [keyLt_irrefl]⟩
      | some m =>
        obtain ⟨hmem, hmax⟩ := ih.2 m hm
        simp only [argmaxRow, hm] at h
        split at h
        · next hk =>
          have hyr : y = r := by simpa using h
          obtain rfl := hyr
          refine ⟨List.mem_cons_self y rest, ?_⟩
          intro x hx
          rcases List.mem_cons.mp hx with hxy | hxr
          · rw [hxy]; exact keyLt_irrefl _
          · cases hb : keyLt (rowKey y) (rowKey x) with
            | false => rfl
            | true =>
              have hmx := keyLt_trans hk hb
              rw [hmax x hxr] at hmx
              exact absurd hmx (by simp)
        · next hk =>
          have hmr : m = r := by simpa using h
          obtain rfl := hmr
          refine ⟨List.mem_cons_of_mem y hmem, ?_⟩
          intro x hx
          rcases List.mem_cons.mp hx with hxy | hxr
          · rw [hxy]
            simpa using hk
          · exact hmax x hxr

theorem argmaxRow_mem {l : List Row} {r : Row}
    (h : argmaxRow l = some r) : r ∈ l :=
  ((argmaxRow_spec l).2 r h).1

theorem argmaxRow_isMax {l : List Row} {r : Row}
    (h : argmaxRow l = some r) :
    ∀ x ∈ l, keyLt (rowKey r) (rowKey x) = false :=
  ((argmaxRow_spec l).2 r h).2

theorem argmaxRow_eq_none {l : List Row} : argmaxRow l = none ↔ l = [] := by
  constructor
  · exact (argmaxRow_spec l).1
  · intro h
    subst h
    rfl

theorem length_filter_lt_of_mem {α : Type} {p : α → Bool} :
    ∀ {l : List α} {a : α}, a ∈ l → p a = false →
      (l.filter p).length < l.length := by
  intro l
  induction l with
  | nil => intro a ha _; simp at ha
  | cons x xs ih =>
    intro a ha hpa
    rcases List.mem_cons.mp ha with hax | hxs
    · subst hax
      rw [List.filter_cons]
      simp only [hpa, Bool.false_eq_true, if_false]
      exact Nat.lt_succ_of_le (List.length_filter_le p xs)
    · rw [List.filter_cons]
      by_cases hpx : p x = true
      · simp only [hpx, if_true, List.length_cons]
        exact Nat.succ_lt_succ (ih hxs hpa)
      · simp only [hpx, if_false]
        exact Nat.lt_succ_of_lt (ih hxs hpa)

theorem matchesQuery_step (c : Option (Nat × Nat)) (k : Nat × Nat)
    (hc : ∀ b, c = some b → keyLt k b = true) (x : Row) :
    matchesQuery (some k) x = (matchesQuery c x && keyLt (rowKey x) k) := by
  cases c with
  | none =>
    simp [matchesQuery]
  | some b =>
    have hkb := hc b rfl
    simp only [matchesQuery]
    cases hside : (x.side == "buy")
    · simp
    · simp only [Bool.true_and]
      cases hxk : keyLt (rowKey x) k
      · simp
      · simp only [Bool.and_true]
        exact (keyLt_trans hxk hkb).symm

theorem remainingRows_step (tbl : List Row) (c : Option (Nat × Nat))
    (k : Nat × Nat) (hc : ∀ b, c = some b → keyLt k b = true) :
    remainingRows tbl (some k) =
      (remainingRows tbl c).filter (fun x => keyLt (rowKey x) k) := by
  unfold remainingRows
  rw [List.filter_filter]
  apply List.filter_congr
  intro x _
  rw [matchesQuery_step c k hc x]
  cases matchesQuery c x <;> cases keyLt (rowKey x) k <;> rfl

theorem selectPage_cursorOk {tbl : List Row} {c : Option (Nat × Nat)} {r : Row}
    (h : selectPage tbl c = some r) :
    ∀ b, c = some b → keyLt (rowKey r) b = true := by
  intro b hb
  subst hb
  have hmem := argmaxRow_mem h
  have hq := (List.mem_filter.mp hmem).2
  simp only [matchesQuery, Bool.and_eq_true] at hq
  exact hq.2

theorem remaining_shrink (tbl : List Row) (c : Option (Nat × Nat)) (r : Row)
    (h : selectPage tbl c = some r) :
    (remainingRows tbl (some (rowKey r))).length <
      (remainingRows tbl c).length := by
  have hmem : r ∈ remainingRows tbl c := argmaxRow_mem h
  rw [remainingRows_step tbl c (rowKey r) (selectPage_cursorOk h)]
  exact length_filter_lt_of_mem hmem (keyLt_irrefl (rowKey r))

/-- The whole sweep, one entry per worker invocation: `some r` when the
invocation observed the page `[r]`, deleted its order events and re-enqueued
the continuation cursor `(createdAt, id)` of `r`; the final `none` is the
invocation that observed zero rows and enqueued nothing. -/
def sweepTrace (tbl : List Row) (cursor : Option (Nat × Nat)) :
    List (Option Row) :=
  match hsel : selectPage tbl cursor with
  | none => [none]
  | some r => some r :: sweepTrace tbl (some (rowKey r))
  termination_by (remainingRows tbl cursor).length
  decreasing_by exact remaining_shrink tbl cursor r hsel

theorem sweepTrace_none {tbl : List Row} {cursor : Option (Nat × Nat)}
    (h : selectPage tbl cursor = none) : sweepTrace tbl cursor = [none] := by
  rw [sweepTrace]
  split
  · rfl
  · next r heq => rw [h] at heq; exact absurd heq (by simp)

theorem sweepTrace_some {tbl : List Row} {cursor : Option (Nat × Nat)}
    {r : Row} (h : selectPage tbl cursor = some r) :
    sweepTrace tbl cursor = some r :: sweepTrace tbl (some (rowKey r)) := by
  rw [sweepTrace]
  split
  · next heq => rw [h] at heq; exact absurd heq (by simp)
  · next r2 heq =>
    rw [h] at heq
    have : r = r2 := by simpa using heq
    rw [this]

theorem countP_eq_one_of_nodup_map {α β : Type} [DecidableEq β] {f : α → β} :
    ∀ {l : List α} {a : α}, (l.map f).Nodup → a ∈ l →
      List.countP (fun x => decide (f x = f a)) l = 1 := by
  intro l
  induction l with
  | nil => intro a _ ha; simp at ha
  | cons x xs ih =>
    intro a hnd ha
    rw [List.map_cons, List.nodup_cons] at hnd
    rw [List.countP_cons]
    rcases List.mem_cons.mp ha with hax | haxs
    · subst hax
      have hzero : List.countP (fun y => decide (f y = f a)) xs = 0 := by
        rw [List.countP_eq_zero]
        intro y hy
        simp only [decide_eq_true_eq]
        intro hfy
        exact hnd.1 (hfy ▸ List.mem_map_of_mem f hy)
      simp [hzero]
    · have hne : f x ≠ f a := by
        intro hcon
        exact hnd.1 (hcon ▸ List.mem_map_of_mem f haxs)
      simp only [decide_eq_true_eq, hne, if_false]
      rw [ih hnd.2 haxs]

theorem remaining_length_step (tbl : List Row) (cursor : Option (Nat × Nat))
    (r : Row) (hsel : selectPage tbl cursor = some r)
    (hnd : ((remainingRows tbl cursor).map rowKey).Nodup) :
    (remainingRows tbl (some (rowKey r))).length + 1 =
      (remainingRows tbl cursor).length := by
  have hmem : r ∈ remainingRows tbl cursor := argmaxRow_mem hsel
  have hmax := argmaxRow_isMax hsel
  have hstep := remainingRows_step tbl cursor (rowKey r)
    (selectPage_cursorOk hsel)
  have hcount1 : List.countP (fun x => decide (rowKey x = rowKey r))
      (remainingRows tbl cursor) = 1 :=
    countP_eq_one_of_nodup_map hnd hmem
  have hnotp : List.countP
      (fun x => decide (¬ keyLt (rowKey x) (rowKey r) = true))
      (remainingRows tbl cursor) = 1 := by
    rw [← hcount1]
    apply List.countP_congr
    intro x hx
    simp only [decide_eq_true_eq]
    constructor
    · intro hfalse
      exact keyLt_total (Bool.not_eq_true _ ▸ hfalse) (hmax x hx)
    · intro heq
      rw [heq, keyLt_irrefl]
      simp
  have hlen := List.length_eq_countP_add_countP
    (p := fun x => keyLt (rowKey x) (rowKey r)) (remainingRows tbl cursor)
  rw [hnotp] at hlen
  rw [hstep, ← List.countP_eq_length_filter]
  omega

theorem sweepTrace_spec (tbl : List Row) :
    ∀ n : Nat, ∀ cursor : Option (Nat × Nat),
      (remainingRows tbl cursor).length ≤ n →
      ((remainingRows tbl cursor).map rowKey).Nodup →
      ∃ rs : List Row, sweepTrace tbl cursor = rs.map some ++ [none] ∧
        rs.length = (remainingRows tbl cursor).length := by
  intro n
  induction n with
  | zero =>
    intro cursor hle _
    have hnil : remainingRows tbl cursor = [] :=
      List.eq_nil_of_length_eq_zero (Nat.le_zero.mp hle)
    have hsel : selectPage tbl cursor = none := by
      unfold selectPage
      rw [hnil]
      rfl
    exact ⟨[], by simp [sweepTrace_none hsel], by simp [hnil]⟩
  | succ n ih =>
    intro cursor hle hnd
    cases hsel : selectPage tbl cursor with
    | none =>
      have hnil : remainingRows tbl cursor = [] := argmaxRow_eq_none.mp hsel
      exact ⟨[], by simp [sweepTrace_none hsel], by simp [hnil]⟩
    | some r =>
      have hlen1 := remaining_length_step tbl cursor r hsel hnd
      have hnd2 : ((remainingRows tbl (some (rowKey r))).map rowKey).Nodup := by
        rw [remainingRows_step tbl cursor (rowKey r) (selectPage_cursorOk hsel)]
        exact List.Nodup.sublist
          (List.Sublist.map rowKey (List.filter_sublist _)) hnd
      have hle2 : (remainingRows tbl (some (rowKey r))).length ≤ n := by omega
      obtain ⟨rs, htr, hlenrs⟩ := ih (some (rowKey r)) hle2 hnd2
      refine ⟨r :: rs, ?_, ?_⟩
      · rw [sweepTrace_some hsel, htr]
        rfl
      · simp only [List.length_cons]
        omega

/-- A queued sweep work item carries only the optional continuation cursor:
`queue.add` is called with a fresh random name and no job id, so every call
appends a new item. -/
def sweepEnqueue (cursor : Option (Nat × Nat))
    (q : List (Option (Nat × Nat))) : List (Option (Nat × Nat)) :=
  q ++ [cursor]

/-- The redlock key of the one-time bootstrap. -/
def lockKey : String := QUEUE_NAME ++ "-lock"

/-- The redlock TTL of the one-time bootstrap, in milliseconds. -/
def lockTtlMs : Nat := 60 * 60 * 24 * 30 * 1000

/-- The bootstrap block `redlock.acquire(...).then(...).catch(skip)`; the
acquisition outcome of the external lock service is passed in. On success
the initial cursorless sweep item is enqueued; an acquisition failure is
swallowed by the empty catch handler, leaving the queue untouched and
raising nothing. -/
def bootstrap (acquired : Except String Unit)
    (q : List (Option (Nat × Nat))) :
    Except String (List (Option (Nat × Nat))) :=
  match acquired with
  | .ok _ => .ok (sweepEnqueue none q)
  | .error _ => .ok q

/-- A concrete four-row orders table used to instantiate the sweep claims:
three buy rows (two sharing a created-at timestamp) and one sell row. -/
def demoTable : List Row :=
  [{ createdAt := 10, id := 1, side := "buy" },
   { createdAt := 10, id := 2, side := "buy" },
   { createdAt := 3, id := 7, side := "buy" },
   { createdAt := 99, id := 9, side := "sell" }]

end RemoveBuyOrderEvents

/-- C1: for every (order kind, maker) pair, `getMinNonce` returns the
maximum bulk-cancel minimum nonce recorded for that pair, or zero when none
is recorded; exactly when the chain id is 4 and the order kind is
wyvern-v2.3 the returned value is that maximum plus one, and for every
other combination the raw maximum is returned unadjusted. -/
theorem C1_effective_min_nonce (cfg : Wyvern.Config) (orderKind maker : String)
    (tbl : List Helpers.BulkCancelRow) :
    Helpers.getMinNonce cfg orderKind maker tbl =
      match Helpers.maxRecorded
          (Helpers.recordedMinNonces orderKind maker tbl) with
      | none => 0
      | some m =>
        if cfg.chainId = 4 ∧ orderKind = "wyvern-v2.3" then m + 1 else m := by
  simp only [Helpers.getMinNonce, Helpers.selectTopMinNonce_eq_max]
  by_cases hq : cfg.chainId = 4 ∧ orderKind = "wyvern-v2.3" <;>
    cases hmax : Helpers.maxRecorded
      (Helpers.recordedMinNonces orderKind maker tbl) <;>
    simp [hq, hmax]

/-- C2: the reorg correction `fixCallback` deletes exactly the cancel and
fill events whose block hash equals the orphaned hash, and re-enqueues a
reconciliation work item for every order hash referenced by the removed
events. -/
theorem C2_reorg_removal_reenqueue (B : String) (l : Ledger.LedgerState) :
    (∀ r : Ledger.CancelRow,
      r ∈ (Ledger.fixCallback B l).1.cancelRows ↔
        (r ∈ l.cancelRows ∧ r.blockHash ≠ B)) ∧
    (∀ r : Ledger.FillRow,
      r ∈ (Ledger.fixCallback B l).1.fillRows ↔
        (r ∈ l.fillRows ∧ r.blockHash ≠ B)) ∧
    (∀ h : String,
      h ∈ (Ledger.fixCallback B l).2 ↔
        ((∃ r ∈ l.cancelRows, r.blockHash = B ∧ h = r.orderHash) ∨
         (∃ r ∈ l.fillRows, r.blockHash = B ∧
            (h = r.buyHash ∨ h = r.sellHash)))) := by
  refine ⟨?_, ?_, ?_⟩
  · intro r
    simp [Ledger.fixCallback, Ledger.removeCancelEvents, List.mem_filter,
      bne_iff_ne]
  · intro r
    simp [Ledger.fixCallback, Ledger.removeFillEvents, List.mem_filter,
      bne_iff_ne]
  · intro h
    simp only [Ledger.fixCallback, Ledger.removeCancelEvents,
      Ledger.removeFillEvents, List.mem_append, List.mem_map,
      List.mem_flatMap, List.mem_filter, beq_iff_eq, List.mem_cons,
      List.mem_singleton, List.not_mem_nil, or_false]
    aesop

/-- C3 (code bug): the bulk-cancel update statement is consumed through
`manyOrNone` and its result rows are mapped over, so it must end in a
`returning` clause; the statement as written contains the bare keyword
`return` and no occurrence of `returning`, which PostgreSQL rejects as a
syntax error, so the claimed order updates and re-enqueues never happen. -/
theorem C3_bulk_cancel_update_lacks_returning :
    containsSub "returning" Wyvern.bulkCancelUpdateStatement = false ∧
    containsSub " return " Wyvern.bulkCancelUpdateStatement = true := by
  decide

/-- C4: the cancel-event and fill-event ledger appends of `syncCallback`
are the parsed events for backfill and non-backfill alike, and a backfill
batch enqueues no reconciliation or fill-accounting work items and leaves
the orders table unchanged. -/
theorem C4_backfill_frame (cfg : Wyvern.Config) (orders : List Wyvern.Order)
    (logs : List Wyvern.Log) :
    (Wyvern.syncCallback cfg orders logs true).appendedCancelEvents =
        (Wyvern.parseLogs logs).cancelEvents ∧
    (Wyvern.syncCallback cfg orders logs true).appendedFillEvents =
        (Wyvern.parseLogs logs).fillEvents ∧
    (Wyvern.syncCallback cfg orders logs false).appendedCancelEvents =
        (Wyvern.parseLogs logs).cancelEvents ∧
    (Wyvern.syncCallback cfg orders logs false).appendedFillEvents =
        (Wyvern.parseLogs logs).fillEvents ∧
    (Wyvern.syncCallback cfg orders logs true).enqueuedHashInfos = [] ∧
    (Wyvern.syncCallback cfg orders logs true).enqueuedFillInfos = [] ∧
    (Wyvern.syncCallback cfg orders logs true).orders = orders := by
  unfold Wyvern.syncCallback
  by_cases ha : cfg.acceptOrders <;> simp [ha]

/-- C5: a per-log decode failure is caught and the log skipped without
aborting the batch: parsing any batch that contains a malformed log yields
exactly the events and work items of the batch without it, so every
well-formed log still yields its derived domain event. -/
theorem C5_malformed_log_skipped (pre post : List Wyvern.Log)
    (bad : Wyvern.Log) (h : bad.data = Wyvern.LogData.malformed) :
    Wyvern.parseLogs (pre ++ bad :: post) =
      Wyvern.appendResult (Wyvern.parseLogs pre) (Wyvern.parseLogs post) := by
  rw [Wyvern.parseLogs_middle, Wyvern.processLog_malformed bad h,
    Wyvern.appendResult_empty_left]

/-- C5 witness: a concrete batch of one malformed and nine well-formed logs
of a known event type yields exactly nine domain events. -/
theorem C5_malformed_log_witness :
    Wyvern.demoBadLog.data = Wyvern.LogData.malformed ∧
    Wyvern.parseLogs Wyvern.demoBatch =
      Wyvern.appendResult
        (Wyvern.parseLogs ((List.range 5).map Wyvern.demoGoodLog))
        (Wyvern.parseLogs
          ((List.range 4).map (fun i => Wyvern.demoGoodLog (5 + i)))) ∧
    (Wyvern.parseLogs Wyvern.demoBatch).cancelEvents.length = 9 ∧
    (Wyvern.parseLogs Wyvern.demoBatch).fillEvents.length = 0 ∧
    (Wyvern.parseLogs Wyvern.demoBatch).bulkCancelEvents.length = 0 :=
  ⟨rfl,
   C5_malformed_log_skipped ((List.range 5).map Wyvern.demoGoodLog)
     ((List.range 4).map (fun i => Wyvern.demoGoodLog (5 + i)))
     Wyvern.demoBadLog rfl,
   by decide, by decide, by decide⟩

/-- C6: the cursor sweep over the buy-order rows strictly shrinks the
remaining unprocessed set on every invocation that observes a row, and from
an empty cursor it runs for exactly M row-observing invocations over a
table of M buy rows; the final trace entry is the invocation that observes
zero rows and enqueues no further item. -/
theorem C6_cursor_sweep_termination (tbl : List RemoveBuyOrderEvents.Row)
    (hnd : ((tbl.filter (fun r => r.side == "buy")).map
      RemoveBuyOrderEvents.rowKey).Nodup) :
    (∀ (cursor : Option (Nat × Nat)) (r : RemoveBuyOrderEvents.Row),
      RemoveBuyOrderEvents.selectPage tbl cursor = some r →
        (RemoveBuyOrderEvents.remainingRows tbl
          (some (RemoveBuyOrderEvents.rowKey r))).length <
        (RemoveBuyOrderEvents.remainingRows tbl cursor).length) ∧
    ∃ rs : List RemoveBuyOrderEvents.Row,
      RemoveBuyOrderEvents.sweepTrace tbl none = rs.map some ++ [none] ∧
      rs.length = (tbl.filter (fun r => r.side == "buy")).length := by
  have hrem : RemoveBuyOrderEvents.remainingRows tbl none =
      tbl.filter (fun r => r.side == "buy") := by
    unfold RemoveBuyOrderEvents.remainingRows
    apply List.filter_congr
    intro x _
    simp [RemoveBuyOrderEvents.matchesQuery]
  constructor
  · intro cursor r h
    exact RemoveBuyOrderEvents.remaining_shrink tbl cursor r h
  · obtain ⟨rs, h1, h2⟩ := RemoveBuyOrderEvents.sweepTrace_spec tbl
      (RemoveBuyOrderEvents.remainingRows tbl none).length none le_rfl
      (by rw [hrem]; exact hnd)
    exact ⟨rs, h1, by rw [h2, hrem]⟩

/-- C6 witness: on a concrete table of three buy rows and one sell row the
sweep trace is three observed rows followed by the empty page. -/
theorem C6_cursor_sweep_witness :
    ∃ rs : List RemoveBuyOrderEvents.Row,
      RemoveBuyOrderEvents.sweepTrace RemoveBuyOrderEvents.demoTable none =
        rs.map some ++ [none] ∧
      rs.length = (RemoveBuyOrderEvents.demoTable.filter
        (fun r => r.side == "buy")).length :=
  (C6_cursor_sweep_termination RemoveBuyOrderEvents.demoTable (by decide)).2

/-- C7: two enqueues for the same (contract, tokenId) pair before the first
item is processed leave exactly one queued item under the job id
contract:tokenId, and that item carries the default 60-minute delivery
delay. -/
theorem C7_dedup_enqueue (q : List ResyncAttributeCache.QueuedJob)
    (contract tokenId : String)
    (h : List.countP (fun j => j.jobId == contract ++ ":" ++ tokenId) q = 0) :
    List.countP (fun j => j.jobId == contract ++ ":" ++ tokenId)
        (ResyncAttributeCache.addToQueue contract tokenId
          (ResyncAttributeCache.addToQueue contract tokenId q)) = 1 ∧
    ∀ j ∈ ResyncAttributeCache.addToQueue contract tokenId
        (ResyncAttributeCache.addToQueue contract tokenId q),
      j.jobId = contract ++ ":" ++ tokenId → j.delayMs = 60 * 60 * 1000 := by
  have hnone : ∀ j ∈ q, ¬ (j.jobId == contract ++ ":" ++ tokenId) = true :=
    List.countP_eq_zero.mp h
  have hany : q.any (fun j => j.jobId == contract ++ ":" ++ tokenId) = false := by
    rw [List.any_eq_false]
    exact hnone
  simp only [ResyncAttributeCache.addToQueue, ResyncAttributeCache.queueAdd,
    hany, Bool.false_eq_true, if_false]
  rw [if_pos]
  · constructor
    · rw [List.countP_append, h, List.countP_cons]
      simp
    · intro j hj hid
      rcases List.mem_append.mp hj with hjq | hjl
      · exact absurd (by simp [hid]) (hnone j hjq)
      · simp only [List.mem_singleton] at hjl
        rw [hjl]
  · rw [List.any_eq_true]
    refine ⟨_, List.mem_append_right q (List.mem_singleton.mpr rfl), ?_⟩
    simp

/-- C7 witness: the dedup property at a concrete empty queue. -/
theorem C7_dedup_enqueue_witness :
    List.countP (fun j => j.jobId == "0xc0ffee" ++ ":" ++ "7")
        (ResyncAttributeCache.addToQueue "0xc0ffee" "7"
          (ResyncAttributeCache.addToQueue "0xc0ffee" "7" [])) = 1 ∧
    ∀ j ∈ ResyncAttributeCache.addToQueue "0xc0ffee" "7"
        (ResyncAttributeCache.addToQueue "0xc0ffee" "7" []),
      j.jobId = "0xc0ffee" ++ ":" ++ "7" → j.delayMs = 60 * 60 * 1000 :=
  C7_dedup_enqueue [] "0xc0ffee" "7" rfl

/-- C8: for every well-formed OrdersMatched log in a batch, the parser
emits exactly one fill event carrying the extracted buy hash, sell hash,
maker, taker and price, exactly two reconciliation work items of shape
context-hash (one per order hash), and exactly one fill-accounting work
item of shape context-buyHash-sellHash-block, where the context is
transactionHash-logIndex. -/
theorem C8_fill_log_emissions (pre post : List Wyvern.Log)
    (addr bh txh b s m t : String) (bn li p : Nat)
    (restTopics : List String) :
    Wyvern.parseLogs (pre ++
        { address := addr, topics := Wyvern.ordersMatchedTopic :: restTopics,
          data := Wyvern.LogData.matched b s m t p, blockNumber := bn,
          blockHash := bh, transactionHash := txh, logIndex := li } :: post) =
      Wyvern.appendResult (Wyvern.parseLogs pre)
        (Wyvern.appendResult
          { bulkCancelEvents := []
            cancelEvents := []
            fillEvents := [⟨toLowerCase b, toLowerCase s, toLowerCase m,
              toLowerCase t, toString p, ⟨addr, bn, bh, txh, li⟩⟩]
            hashInfos := [⟨txh ++ "-" ++ toString li, toLowerCase b⟩,
              ⟨txh ++ "-" ++ toString li, toLowerCase s⟩]
            fillInfos := [⟨txh ++ "-" ++ toString li, toLowerCase b,
              toLowerCase s, bn⟩] }
          (Wyvern.parseLogs post)) := by
  rw [Wyvern.parseLogs_middle]
  congr 2

/-- C9: the one-time bootstrap sweep takes the cluster lock under the key
queue-name dash lock with a 30-day TTL before enqueuing the initial
cursorless sweep item, and a failed acquisition is silently skipped: no
error is raised and nothing is enqueued. -/
theorem C9_bootstrap_lock :
    RemoveBuyOrderEvents.lockKey = "remove-buy-order-events-queue-lock" ∧
    RemoveBuyOrderEvents.lockTtlMs = 30 * 24 * 60 * 60 * 1000 ∧
    (∀ q, RemoveBuyOrderEvents.bootstrap (Except.ok ()) q =
      Except.ok (q ++ [none])) ∧
    (∀ e q, RemoveBuyOrderEvents.bootstrap (Except.error e) q =
      Except.ok q) :=
  ⟨rfl, rfl, fun _ => rfl, fun _ _ => rfl⟩

/-- C10: every order hash and every maker or taker address contained in any
domain event or work item emitted by the parser is case-normalized to
lowercase, for every input batch regardless of the casing in the raw
logs. -/
theorem C10_lowercase_normalized (logs : List Wyvern.Log) :
    Wyvern.resultLowercased (Wyvern.parseLogs logs) :=
  Wyvern.resultLowercased_parseLogs logs
